import Mathlib

/-!
Shallow embedding of the resume-screening pipeline of `main.py`
(classes `ResumeParser` and `JobMatcher` plus the recommendation banding of
the main loop), together with proofs checking the specification's claims.

Modelling conventions:
* Python strings are modelled as Lean `String`/`List Char`; all concrete
  inputs in the claims are ASCII, and the character-class helpers below
  (`pyLower`, `isSpaceC`, `isWordC`, ...) agree with Python's `str.lower`,
  `\s`, `\w`, ... on ASCII.
* Python `float` arithmetic is modelled by exact rational arithmetic `ℚ`;
  `round(x, 1)` is modelled by round-half-to-even at one decimal
  (`pyRound1`), which is Python's rounding rule on exact values.
* Python `set` objects are modelled as `Finset String`; conversion of a set
  back to a list (`list(s)`) has implementation-defined element order, which
  is modelled by the predicate `pySetList` ("`l` is a possible result").
* The regular-expression searches of the source are modelled operationally:
  a small backtracking matcher (`mrun`) with Python's greedy leftmost
  semantics for the email/phone patterns, and direct scanning functions for
  `re.findall` on the experience patterns and for the word-boundary skill
  search.
-/

/-! ### Character classes (ASCII fragments of the Python classes) -/

/-- ASCII model of `str.lower` applied characterwise. -/
def pyLower (c : Char) : Char :=
  if 'A' ≤ c ∧ c ≤ 'Z' then Char.ofNat (c.toNat + 32) else c

/-- Python's `\s` class (ASCII part): space, tab, newline, CR, VT, FF. -/
def isSpaceC (c : Char) : Bool :=
  c == ' ' || c == '\t' || c == '\n' || c == '\r' || c == '\x0b' || c == '\x0c'

/-- Python's `\d` class (ASCII part). -/
def isDigitC (c : Char) : Bool := c.isDigit

/-- Python's `\w` class (ASCII part): letters, digits, underscore. -/
def isWordC (c : Char) : Bool := c.isAlphanum || c == '_'

/-- `dropWhile` never lengthens a list (helper for termination proofs). -/
theorem dropWhileLenLe {α : Type} (p : α → Bool) :
    ∀ l : List α, (l.dropWhile p).length ≤ l.length
  | [] => le_refl _
  | c :: cs => by
    simp only [List.dropWhile]
    split
    · exact le_trans (dropWhileLenLe p cs) (Nat.le_succ _)
    · simp

/-! ### `normalize_text` (line 19 of the source):
`re.sub(r'\s+', ' ', text.lower()).strip()` -/

/-- `re.sub(r'\s+', ' ', ·)`: replace each maximal whitespace run by one
space.  Structural recursion on a fuel bound (any fuel `≥ length` gives the
same result) so that the kernel can evaluate it. -/
def collapseF : ℕ → List Char → List Char
  | 0, _ => []
  | _, [] => []
  | fuel + 1, c :: cs =>
    if isSpaceC c then ' ' :: collapseF fuel (cs.dropWhile isSpaceC)
    else c :: collapseF fuel cs

def collapseWS (l : List Char) : List Char := collapseF l.length l

/-- `str.lstrip()` on the whitespace class. -/
def ltrimWS (l : List Char) : List Char := l.dropWhile isSpaceC

/-- `str.rstrip()` on the whitespace class. -/
def rtrimWS (l : List Char) : List Char := (l.reverse.dropWhile isSpaceC).reverse

/-- `str.strip()`. -/
def stripWS (l : List Char) : List Char := rtrimWS (ltrimWS l)

/-- `normalize_text` from the source: lower-case, collapse whitespace runs
to single spaces, strip the ends. -/
def normalize_text (s : String) : String :=
  String.mk (stripWS (collapseWS (s.toList.map pyLower)))

/-! ### Skill extraction (`ResumeParser.extract_skills`, lines 80-87).
`re.search(r'\b' + re.escape(skill) + r'\b', text_lower)`: since the escaped
skill is a literal, a match exists iff the skill occurs as a contiguous
substring with a `\b` word boundary at each end.  `\b` holds at a position
iff exactly one of the adjacent characters (an absent one counting as
non-word) is a word character. -/

/-- Whether position `i` of `l` holds a word character (out of range: no). -/
def wcAt (l : List Char) (i : ℕ) : Bool :=
  match l[i]? with
  | some c => isWordC c
  | none => false

/-- Whether the character before position `i` is a word character
(the text edge counts as non-word). -/
def prevWC (l : List Char) (i : ℕ) : Bool :=
  match i with
  | 0 => false
  | j + 1 => wcAt l j

/-- Python's `\b` at position `i` (between `l[i-1]` and `l[i]`). -/
def boundaryAt (l : List Char) (i : ℕ) : Bool :=
  prevWC l i != wcAt l i

/-- The literal `p` matches at position `i` of `l` with `\b` at both ends. -/
def hitAt (p l : List Char) (i : ℕ) : Bool :=
  p.isPrefixOf (l.drop i) && boundaryAt l i && boundaryAt l (i + p.length)

/-- `re.search(r'\b' + re.escape(p) + r'\b', l) is not None`. -/
def skillFound (p l : List Char) : Bool :=
  (List.range (l.length + 1)).any (hitAt p l)

/-- `ResumeParser.SKILL_DB` (lines 29-35). -/
def SKILL_DB : List String :=
  ["python", "java", "c++", "sql", "aws", "docker", "kubernetes",
   "react", "angular", "django", "flask", "machine learning",
   "data analysis", "communication", "project management",
   "git", "linux", "html", "css", "javascript",
   "typescript", "node.js", "pandas", "numpy"]

/-- The `found` list built by `extract_skills` before `list(set(found))`. -/
def found_skills (text : String) : List String :=
  SKILL_DB.filter (fun s => skillFound s.toList (normalize_text text).toList)

/-- `extract_skills`: the source returns `list(set(found))`; the set of
elements is modelled as a `Finset`, the (implementation-defined) list order
by `pySetList` below. -/
def extract_skills (text : String) : Finset String :=
  (found_skills text).toFinset

/-- `l` is a possible result of Python's `list(s)` for a set `s`:
the elements of `s` in some order, each exactly once. -/
def pySetList (s : Finset String) (l : List String) : Prop :=
  l.Nodup ∧ l.toFinset = s

/-! ### Experience extraction (`ResumeParser.extract_experience`, lines 89-106). -/

/-- Numeric value of a digit run (`int(...)` on the captured group). -/
def digitsVal (l : List Char) : ℕ :=
  l.foldl (fun a c => 10 * a + (c.toNat - 48)) 0

/-- Drop a single leading `+` if present (the regex piece `\+?`; greedy and
deterministic since a failed tail cannot be repaired by giving `+` back). -/
def dropPlusSign : List Char → List Char
  | '+' :: t => t
  | l => l

/-- Greedy `s?` after `year`. -/
def dropYearsS : List Char → List Char
  | 's' :: t => t
  | l => l

/-- Match the regex tail `\+?\s*years?` at the head of `l`; on success
return the remainder of the string after the match. -/
def afterYearTail (l : List Char) : Option (List Char) :=
  match (dropPlusSign l).dropWhile isSpaceC with
  | 'y' :: 'e' :: 'a' :: 'r' :: t => some (dropYearsS t)
  | _ => none

theorem dropYearsS_length (l : List Char) : (dropYearsS l).length ≤ l.length := by
  unfold dropYearsS; split <;> simp

theorem dropPlusSign_length (l : List Char) : (dropPlusSign l).length ≤ l.length := by
  unfold dropPlusSign; split <;> simp

theorem afterYearTail_length {l r : List Char} (h : afterYearTail l = some r) :
    r.length ≤ l.length := by
  unfold afterYearTail at h
  split at h
  next t heq =>
    cases h
    have h1 : ('y' :: 'e' :: 'a' :: 'r' :: t).length ≤ l.length := by
      rw [← heq]
      exact le_trans (dropWhileLenLe _ _) (dropPlusSign_length l)
    simp only [List.length_cons] at h1
    have h2 := dropYearsS_length t
    omega
  next => cases h

/-- `re.findall(r'(\d+)\+?\s*years?', l)` mapped through `int`:
scan left to right; at a digit, the greedy `\d+` takes the maximal digit
run; if the `\+?\s*years?` tail follows, capture the run and continue after
the match, otherwise continue after the run (positions inside the run start
with the same failing tail). -/
def expMatchesF : ℕ → List Char → List ℕ
  | 0, _ => []
  | _, [] => []
  | fuel + 1, c :: cs =>
    if isDigitC c then
      match afterYearTail (cs.dropWhile isDigitC) with
      | some rest2 => digitsVal (c :: cs.takeWhile isDigitC) :: expMatchesF fuel rest2
      | none => expMatchesF fuel (cs.dropWhile isDigitC)
    else expMatchesF fuel cs

def expMatches (l : List Char) : List ℕ := expMatchesF l.length l

/-- `re.findall(r'(20\d{2})', l)` mapped through `int`: non-overlapping
left-to-right scan for `2`, `0`, digit, digit. -/
def yearMatchesF : ℕ → List Char → List ℕ
  | 0, _ => []
  | _, [] => []
  | fuel + 1, '2' :: '0' :: c1 :: c2 :: rest =>
    if isDigitC c1 && isDigitC c2 then
      (2000 + 10 * (c1.toNat - 48) + (c2.toNat - 48)) :: yearMatchesF fuel rest
    else yearMatchesF fuel ('0' :: c1 :: c2 :: rest)
  | fuel + 1, _ :: rest => yearMatchesF fuel rest

def yearMatches (l : List Char) : List ℕ := yearMatchesF l.length l

/-- Python `max` over a non-empty list of naturals (`0` on `[]`, which the
source guards against). -/
def pyMax : List ℕ → ℕ
  | [] => 0
  | x :: xs => xs.foldl max x

/-- Python `min` over a non-empty list of naturals (`0` on `[]`). -/
def pyMin : List ℕ → ℕ
  | [] => 0
  | x :: xs => xs.foldl min x

/-- `ResumeParser.extract_experience`: explicit `N years` matches take
precedence; otherwise a span of `20xx` years; otherwise 0.  (The source's
`try`/`except` around the span is unreachable: `max - min` of a non-empty
int list cannot raise.) -/
def extract_experience (text : String) : ℕ :=
  let l := (normalize_text text).toList
  let ms := expMatches l
  if ms ≠ [] then pyMax ms
  else
    let years := yearMatches l
    if years.length ≥ 2 then pyMax years - pyMin years else 0

/-! ### A small backtracking regex matcher.
Used for the email pattern of `extract_email` (line 63) and the phone
pattern of `extract_phone` (line 68).  Both patterns use only character
classes, concatenation, greedy `?`, greedy counted repetition and greedy
`+`/`{2,}` of a character class, so backtracking order (Python's
leftmost match, greedy quantifiers trying longer alternatives first) is
captured exactly by the depth-first search below. -/

inductive Pat where
  | cls (p : Char → Bool)
  | seq (a b : Pat)
  | opt (a : Pat)
  | plusC (p : Char → Bool)
  | starC (p : Char → Bool)

/-- Try the continuation after consuming `n`, `n-1`, ..., `1` characters
(the greedy backtracking order for a `+` repetition of a class whose
maximal run at this point has length `≥ n`). -/
def tryDrops (k : List Char → Option (List Char)) (s : List Char) : ℕ → Option (List Char)
  | 0 => none
  | n + 1 =>
    match k (s.drop (n + 1)) with
    | some r => some r
    | none => tryDrops k s n

/-- Run pattern `a` at the head of `s` with continuation `k`; returns the
first success of the backtracking search in Python's greedy order, carrying
the unconsumed remainder. -/
def mrun : Pat → List Char → (List Char → Option (List Char)) → Option (List Char)
  | .cls p, s, k =>
    match s with
    | c :: cs => if p c then k cs else none
    | [] => none
  | .seq a b, s, k => mrun a s (fun s2 => mrun b s2 k)
  | .opt a, s, k =>
    match mrun a s k with
    | some r => some r
    | none => k s
  | .plusC p, s, k => tryDrops k s (s.takeWhile p).length
  | .starC p, s, k =>
    match tryDrops k s (s.takeWhile p).length with
    | some r => some r
    | none => k s

/-- `re.search`: try a match at each position, leftmost first; on success
return the matched substring (group 0). -/
def reSearchL (pat : Pat) : List Char → Option (List Char)
  | [] =>
    match mrun pat [] some with
    | some _ => some []
    | none => none
  | c :: cs =>
    match mrun pat (c :: cs) some with
    | some rem => some ((c :: cs).take ((c :: cs).length - rem.length))
    | none => reSearchL pat cs

/-- `[a-zA-Z0-9._%+-]` (local part of the email pattern). -/
def emailLocal (c : Char) : Bool :=
  c.isAlpha || c.isDigit || c == '.' || c == '_' || c == '%' || c == '+' || c == '-'

/-- `[a-zA-Z0-9.-]` (domain part of the email pattern). -/
def emailDomain (c : Char) : Bool :=
  c.isAlpha || c.isDigit || c == '.' || c == '-'

/-- `[a-zA-Z]`. -/
def asciiAlpha (c : Char) : Bool := c.isAlpha

/-- The email regex of line 63:
`[a-zA-Z0-9._%+-]+@[a-zA-Z0-9.-]+\.[a-zA-Z]{2,}`. -/
def emailPat : Pat :=
  .seq (.plusC emailLocal)
    (.seq (.cls (· == '@'))
      (.seq (.plusC emailDomain)
        (.seq (.cls (· == '.'))
          (.seq (.cls asciiAlpha) (.seq (.cls asciiAlpha) (.starC asciiAlpha))))))

/-- `[-.\s]` (separator class of the phone pattern). -/
def sepC (c : Char) : Bool := c == '-' || c == '.' || isSpaceC c

/-- `\d{1,3}` (greedy). -/
def digits13 : Pat :=
  .seq (.cls isDigitC) (.opt (.seq (.cls isDigitC) (.opt (.cls isDigitC))))

/-- `\d{3}`. -/
def digits3 : Pat := .seq (.cls isDigitC) (.seq (.cls isDigitC) (.cls isDigitC))

/-- `\d{4}`. -/
def digits4 : Pat := .seq (.cls isDigitC) digits3

/-- The phone regex of line 68:
`(\+?\d{1,3}[-.\s]?)?\(?\d{3}\)?[-.\s]?\d{3}[-.\s]?\d{4}`. -/
def phonePat : Pat :=
  .seq (.opt (.seq (.opt (.cls (· == '+'))) (.seq digits13 (.opt (.cls sepC)))))
    (.seq (.opt (.cls (· == '(')))
      (.seq digits3
        (.seq (.opt (.cls (· == ')')))
          (.seq (.opt (.cls sepC))
            (.seq digits3 (.seq (.opt (.cls sepC)) digits4))))))

/-- `ResumeParser.extract_email` (lines 62-64): first match or a sentinel. -/
def extract_email (text : String) : String :=
  match reSearchL emailPat text.toList with
  | some m => String.mk m
  | none => "Not Found"

/-- `ResumeParser.extract_phone` (lines 67-69): first match or a sentinel. -/
def extract_phone (text : String) : String :=
  match reSearchL phonePat text.toList with
  | some m => String.mk m
  | none => "Not Found"

/-! ### Name extraction (`ResumeParser.extract_name`, lines 72-78). -/

/-- Python `str.split()`: maximal whitespace-free chunks (fuel-structural). -/
def wordsOfF : ℕ → List Char → List (List Char)
  | 0, _ => []
  | _, [] => []
  | fuel + 1, c :: cs =>
    if isSpaceC c then wordsOfF fuel cs
    else (c :: cs.takeWhile (fun x => !isSpaceC x))
      :: wordsOfF fuel (cs.dropWhile (fun x => !isSpaceC x))

def wordsOf (l : List Char) : List (List Char) := wordsOfF l.length l

/-- `str.strip()` on a `String`. -/
def pyStrip (s : String) : String := String.mk (stripWS s.toList)

/-- Python `str.split("\n")`: split at every newline, keeping empties. -/
def splitNL : List Char → List (List Char)
  | [] => [[]]
  | '\n' :: cs => [] :: splitNL cs
  | c :: cs =>
    match splitNL cs with
    | seg :: rest => (c :: seg) :: rest
    | [] => [[c]]

/-- `extract_name`: the first non-empty stripped line, if it has at most 4
whitespace-separated tokens; otherwise the sentinel. -/
def extract_name (text : String) : String :=
  let lines := ((splitNL text.toList).map (fun l => String.mk (stripWS l))).filter
    (fun s => s ≠ "")
  match lines with
  | [] => "Unknown"
  | l0 :: _ => if (wordsOf l0.toList).length ≤ 4 then l0 else "Unknown"

/-! ### `ResumeParser.parse` (lines 108-117). -/

structure Candidate where
  name : String
  email : String
  phone : String
  skills : Finset String
  years_experience : ℕ
  raw_text : String
deriving DecidableEq

def parse (text : String) : Candidate :=
  { name := extract_name text
    email := extract_email text
    phone := extract_phone text
    skills := extract_skills text
    years_experience := extract_experience text
    raw_text := text }

/-! ### Rounding.  Python's `round(x, 1)` on exact values: round half to
even at one decimal.  (On binary floats the tie direction can additionally
be perturbed by representation error; no tie arises in the claims.) -/

/-- Round half to even to an integer. -/
def rhe (q : ℚ) : ℤ :=
  if q - ⌊q⌋ < 1 / 2 then ⌊q⌋
  else if 1 / 2 < q - ⌊q⌋ then ⌊q⌋ + 1
  else if ⌊q⌋ % 2 = 0 then ⌊q⌋ else ⌊q⌋ + 1

/-- `round(q, 1)`. -/
def pyRound1 (q : ℚ) : ℚ := (rhe (10 * q) : ℚ) / 10

/-! ### `JobMatcher` (lines 120-145) and the recommendation banding of the
main loop (lines 195-199). -/

structure JobMatcher where
  req_skills : Finset String
  min_exp : ℤ

/-- `JobMatcher.__init__`: `set(normalize_text(s) for s in required_skills)`. -/
def JobMatcher.init (required_skills : List String) (min_exp : ℤ) : JobMatcher :=
  { req_skills := (required_skills.map normalize_text).toFinset
    min_exp := min_exp }

/-- The skill score of `calculate_score`: 100 when no skills are required,
otherwise the matched fraction of the required set, as a percentage. -/
def skill_score (m : JobMatcher) (c : Candidate) : ℚ :=
  if m.req_skills = ∅ then 100
  else (((c.skills ∩ m.req_skills).card : ℚ) / (m.req_skills.card : ℚ)) * 100

/-- The `missing` list of `calculate_score`, as a set of elements
(`list(...)` order is modelled by `pySetList`). -/
def missing_skills (m : JobMatcher) (c : Candidate) : Finset String :=
  if m.req_skills = ∅ then ∅ else m.req_skills \ c.skills

/-- The experience score of `calculate_score`. -/
def exp_score (m : JobMatcher) (c : Candidate) : ℚ :=
  if (c.years_experience : ℤ) ≥ m.min_exp then 100
  else if 0 < m.min_exp then ((c.years_experience : ℚ) / (m.min_exp : ℚ)) * 100
  else 100

/-- `skill_score * 0.7 + exp_score * 0.3` before rounding. -/
def final_score (m : JobMatcher) (c : Candidate) : ℚ :=
  skill_score m c * (7 / 10) + exp_score m c * (3 / 10)

structure ScoreResult where
  score : ℚ
  missing : Finset String
  skill_percent : ℚ
deriving DecidableEq

/-- `JobMatcher.calculate_score`: the returned triple
`(round(final_score, 1), missing, round(skill_score, 1))`. -/
def calculate_score (m : JobMatcher) (c : Candidate) : ScoreResult :=
  { score := pyRound1 (final_score m c)
    missing := missing_skills m c
    skill_percent := pyRound1 (skill_score m c) }

/-- The recommendation banding applied to the rounded score in the main
loop (lines 195-199). -/
def recommendation (score : ℚ) : String :=
  if 85 ≤ score then "Strong Hire" else if 60 ≤ score then "Interview" else "Reject"

/-! ### `ResumeParser.extract_text` (lines 37-59).
The external document readers (`pypdf`, `python-docx`, UTF-8 decoding) are
abstracted by the outcome each extraction step would produce on the
document's bytes: each PDF page's `extract_text()` either raises
(`Except.error`) or returns an optional string; each DOCX paragraph's
`.text` either raises or is a string; the `.txt` decode either raises or
yields the text.  A reader-construction failure behaves like an immediate
first-step failure.  The `try`/`except` of the source catches the first
error, reports it (`st.error`, modelled by the Bool flag) and returns the
text accumulated so far. -/

structure UploadedFile where
  name : String
  pdfPages : List (Except Unit (Option String))
  docxParas : List (Except Unit String)
  txtData : Except Unit String

/-- Python `str.endswith`. -/
def pyEndsWith (s suffx : String) : Bool := suffx.toList.isSuffixOf s.toList

/-- The PDF loop: `if extracted: text += extracted + "\n"` per page, with
Python truthiness (both `None` and `""` are skipped). -/
def pdfLoop (acc : String) : List (Except Unit (Option String)) → String × Bool
  | [] => (acc, false)
  | Except.ok (some s) :: rest =>
    if s ≠ "" then pdfLoop (acc ++ s ++ "\n") rest else pdfLoop acc rest
  | Except.ok none :: rest => pdfLoop acc rest
  | Except.error _ :: _ => (acc, true)

/-- The DOCX loop: `text += para.text + "\n"` per paragraph. -/
def docxLoop (acc : String) : List (Except Unit String) → String × Bool
  | [] => (acc, false)
  | Except.ok s :: rest => docxLoop (acc ++ s ++ "\n") rest
  | Except.error _ :: _ => (acc, true)

/-- `extract_text`: dispatch on the filename suffix; the Bool records
whether a per-document error was caught and reported. -/
def extract_text (f : UploadedFile) : String × Bool :=
  if pyEndsWith f.name ".pdf" then pdfLoop "" f.pdfPages
  else if pyEndsWith f.name ".docx" then docxLoop "" f.docxParas
  else if pyEndsWith f.name ".txt" then
    match f.txtData with
    | Except.ok s => (s, false)
    | Except.error _ => ("", true)
  else ("", false)

/-! Declarative characterization of the loops, used for the error-handling
claims: the text is the newline-joined successfully extracted content
before the first failure. -/

def joinStr : List String → String
  | [] => ""
  | s :: rest => s ++ joinStr rest

def isOkE {α : Type} : Except Unit α → Bool
  | Except.ok _ => true
  | Except.error _ => false

/-- The page texts contributed before the first failure. -/
def pdfHeadText (pages : List (Except Unit (Option String))) : String :=
  joinStr ((pages.takeWhile isOkE).filterMap fun e =>
    match e with
    | Except.ok (some s) => if s ≠ "" then some (s ++ "\n") else none
    | _ => none)

/-- The paragraph texts contributed before the first failure. -/
def docxHeadText (paras : List (Except Unit String)) : String :=
  joinStr ((paras.takeWhile isOkE).filterMap fun e =>
    match e with
    | Except.ok s => some (s ++ "\n")
    | _ => none)

def hasErrE {α : Type} (l : List (Except Unit α)) : Bool := l.any fun e => !isOkE e

/-- The text accumulated before a failure, per format. -/
def failTextOf (f : UploadedFile) : String :=
  if pyEndsWith f.name ".pdf" then pdfHeadText f.pdfPages
  else if pyEndsWith f.name ".docx" then docxHeadText f.docxParas
  else ""


theorem pdfLoop_spec (pages : List (Except Unit (Option String))) :
    ∀ acc, pdfLoop acc pages = (acc ++ pdfHeadText pages, hasErrE pages) := by
  induction pages with
  | nil => intro acc; simp [pdfLoop, pdfHeadText, hasErrE, joinStr, String.append_empty]
  | cons e rest ih =>
    intro acc
    match e with
    | Except.ok (some s) =>
      by_cases hs : s = ""
      · subst hs
        simpa [pdfLoop, pdfHeadText, hasErrE, isOkE, joinStr] using ih acc
      · have h1 := ih (acc ++ s ++ "\n")
        simp only [pdfLoop, if_pos hs, h1]
        simp [pdfHeadText, hasErrE, isOkE, joinStr, hs, String.append_assoc]
    | Except.ok none =>
      simpa [pdfLoop, pdfHeadText, hasErrE, isOkE, joinStr] using ih acc
    | Except.error u =>
      simp [pdfLoop, pdfHeadText, hasErrE, isOkE, joinStr, String.append_empty]

theorem docxLoop_spec (paras : List (Except Unit String)) :
    ∀ acc, docxLoop acc paras = (acc ++ docxHeadText paras, hasErrE paras) := by
  induction paras with
  | nil => intro acc; simp [docxLoop, docxHeadText, hasErrE, joinStr, String.append_empty]
  | cons e rest ih =>
    intro acc
    match e with
    | Except.ok s =>
      have h1 := ih (acc ++ s ++ "\n")
      simp only [docxLoop, h1]
      simp [docxHeadText, hasErrE, isOkE, joinStr, String.append_assoc]
    | Except.error u =>
      simp [docxLoop, docxHeadText, hasErrE, isOkE, joinStr, String.append_empty]

/-! ### Specification-side definitions.
These follow the wording of the specification (not the source) and are
compared with the source-derived definitions in the claim theorems. -/

/-- Modelled from the spec: normalization described as "lower-cased,
whitespace runs collapsed to a single space, leading/trailing whitespace
stripped", phrased independently of the source as joining the
whitespace-separated words with single spaces. -/
def joinWords : List (List Char) → List Char
  | [] => []
  | [w] => w
  | w :: ws => w ++ ' ' :: joinWords ws

def specNormalize (s : String) : String :=
  String.mk (joinWords (wordsOf (s.toList.map pyLower)))

/-- Modelled from the spec: `p` occurs at `i` as a standalone word or exact
contiguous multi-word phrase, with a token boundary (text edge or a
non-word character) on each side. -/
def specHit (p l : List Char) (i : ℕ) : Bool :=
  p.isPrefixOf (l.drop i) && !prevWC l i && !wcAt l (i + p.length)

/-- Modelled from the spec: a standalone (token-delimited) occurrence of
`p` somewhere in `l`. -/
def specSeparated (p l : List Char) : Bool :=
  (List.range (l.length + 1)).any (specHit p l)

/-- Both edge characters of `p` are word characters (letters/digits/`_`). -/
def wordEdged (p : List Char) : Bool :=
  wcAt p 0 && wcAt p (p.length - 1)

/-- The character before the current position is absent or not a digit
(so a digit run starting here is maximal). -/
def prevNonDigit : Option Char → Bool
  | none => true
  | some d => !isDigitC d

/-- Modelled from the spec: collect, position by position, every maximal
digit run that is followed by the `\+?\s*years?` tail (`prev` is the
character before the current position). -/
def occScan (prev : Option Char) : List Char → List ℕ
  | [] => []
  | c :: cs =>
    if prevNonDigit prev && isDigitC c
        && (afterYearTail (cs.dropWhile isDigitC)).isSome then
      digitsVal (c :: cs.takeWhile isDigitC) :: occScan (some c) cs
    else occScan (some c) cs

/-- Modelled from the spec: the experience heuristic as the claim words it,
with the first tier phrased as "the maximum over all occurrences"
(`occScan`) rather than as the regex engine's non-overlapping scan. -/
def claimedExperience (text : String) : ℕ :=
  let l := (normalize_text text).toList
  let occ := occScan none l
  if occ ≠ [] then pyMax occ
  else
    let years := yearMatches l
    if years.length ≥ 2 then pyMax years - pyMin years else 0

/-! ### Lemmas about the experience scan (for claim C2). -/

theorem expMatchesF_irrel : ∀ (f1 f2 : ℕ) (l : List Char),
    l.length ≤ f1 → l.length ≤ f2 → expMatchesF f1 l = expMatchesF f2 l := by
  intro f1
  induction f1 with
  | zero =>
    intro f2 l h1 _
    have hl : l = [] := List.length_eq_zero.mp (Nat.le_zero.mp h1)
    subst hl
    cases f2 <;> rfl
  | succ f ih =>
    intro f2 l h1 h2
    cases l with
    | nil => cases f2 <;> rfl
    | cons c cs =>
      cases f2 with
      | zero => simp at h2
      | succ g =>
        simp only [List.length_cons] at h1 h2
        simp only [expMatchesF]
        split
        · split
          next r hay =>
            have hr : r.length ≤ cs.length :=
              le_trans (afterYearTail_length hay) (dropWhileLenLe _ _)
            rw [ih g r (by omega) (by omega)]
          next =>
            have hr : (cs.dropWhile isDigitC).length ≤ cs.length := dropWhileLenLe _ _
            exact ih g _ (by omega) (by omega)
        · exact ih g cs (by omega) (by omega)

theorem expMatches_cons_nondigit (c : Char) {cs : List Char} (h : isDigitC c = false) :
    expMatches (c :: cs) = expMatches cs := by
  unfold expMatches
  simp only [List.length_cons, expMatchesF, h, Bool.false_eq_true, if_false]

theorem expMatches_cons_digit_some {c : Char} {cs r : List Char} (h : isDigitC c = true)
    (hay : afterYearTail (cs.dropWhile isDigitC) = some r) :
    expMatches (c :: cs) = digitsVal (c :: cs.takeWhile isDigitC) :: expMatches r := by
  unfold expMatches
  simp only [List.length_cons, expMatchesF, h, if_true, hay]
  have hr : r.length ≤ cs.length :=
    le_trans (afterYearTail_length hay) (dropWhileLenLe _ _)
  rw [expMatchesF_irrel cs.length r.length r hr (le_refl _)]

theorem expMatches_cons_digit_none {c : Char} {cs : List Char} (h : isDigitC c = true)
    (hay : afterYearTail (cs.dropWhile isDigitC) = none) :
    expMatches (c :: cs) = expMatches (cs.dropWhile isDigitC) := by
  unfold expMatches
  simp only [List.length_cons, expMatchesF, h, if_true, hay]
  exact expMatchesF_irrel cs.length _ _ (dropWhileLenLe _ _) (le_refl _)

theorem isSpaceC_not_digit {c : Char} (h : isSpaceC c = true) : isDigitC c = false := by
  unfold isSpaceC at h
  simp only [Bool.or_eq_true, beq_iff_eq] at h
  rcases h with ((((h | h) | h) | h) | h) | h <;> subst h <;> rfl

theorem expMatches_dropWhile_space (l : List Char) :
    expMatches (l.dropWhile isSpaceC) = expMatches l := by
  induction l with
  | nil => rfl
  | cons c cs ih =>
    cases h : isSpaceC c with
    | true =>
      rw [List.dropWhile_cons_of_pos h, ih, expMatches_cons_nondigit c (isSpaceC_not_digit h)]
    | false =>
      rw [List.dropWhile_cons_of_neg (by simp [h])]

theorem expMatches_afterYearTail {l r : List Char} (h : afterYearTail l = some r) :
    expMatches l = expMatches r := by
  unfold afterYearTail at h
  split at h
  next t heq =>
    cases h
    have h1 : expMatches l = expMatches (dropPlusSign l) := by
      unfold dropPlusSign
      split
      next t2 => exact (expMatches_cons_nondigit '+' (by decide)).symm
      next => rfl
    have h2 : expMatches (dropPlusSign l)
        = expMatches ((dropPlusSign l).dropWhile isSpaceC) :=
      (expMatches_dropWhile_space _).symm
    rw [h1, h2, heq]
    rw [expMatches_cons_nondigit 'y' (by decide), expMatches_cons_nondigit 'e' (by decide),
        expMatches_cons_nondigit 'a' (by decide), expMatches_cons_nondigit 'r' (by decide)]
    unfold dropYearsS
    split
    next t2 => exact expMatches_cons_nondigit 's' (by decide)
    next => rfl
  next => cases h

theorem occScan_cons (prev : Option Char) (c : Char) (cs : List Char) :
    occScan prev (c :: cs) =
      if prevNonDigit prev && isDigitC c
          && (afterYearTail (cs.dropWhile isDigitC)).isSome then
        digitsVal (c :: cs.takeWhile isDigitC) :: occScan (some c) cs
      else occScan (some c) cs := rfl

/-- The claim's position-by-position collection of maximal `N years`
occurrences computes exactly the values of the source's non-overlapping
`re.findall` scan (with `prev` a digit, the scan is inside a run whose
start has already been examined, so the run is skipped). -/
theorem occScan_eq_expMatches :
    ∀ (l : List Char) (prev : Option Char),
      occScan prev l =
        if prevNonDigit prev then expMatches l
        else expMatches (l.dropWhile isDigitC) := by
  intro l
  induction l with
  | nil =>
    intro prev
    show ([] : List ℕ) = if prevNonDigit prev then expMatches [] else expMatches []
    split <;> rfl
  | cons c cs ih =>
    intro prev
    rw [occScan_cons]
    cases hd : isDigitC c with
    | false =>
      rw [if_neg (by simp [hd])]
      rw [ih (some c), if_pos (by simp [prevNonDigit, hd])]
      rw [show (c :: cs).dropWhile isDigitC = c :: cs from
        List.dropWhile_cons_of_neg (by simp [hd])]
      rw [expMatches_cons_nondigit c hd]
      split <;> rfl
    | true =>
      have hihc : occScan (some c) cs = expMatches (cs.dropWhile isDigitC) := by
        rw [ih (some c), if_neg (by simp [prevNonDigit, hd])]
      have hdrop : (c :: cs).dropWhile isDigitC = cs.dropWhile isDigitC :=
        List.dropWhile_cons_of_pos (by simp [hd])
      cases hb : prevNonDigit prev with
      | false =>
        rw [if_neg (by simp [hb]), hihc, if_neg (by simp [hb]), hdrop]
      | true =>
        cases hay : afterYearTail (cs.dropWhile isDigitC) with
        | some r =>
          rw [if_pos (by simp [hb, hd, hay]), hihc, if_pos (by simp [hb]),
              expMatches_cons_digit_some hd hay,
              expMatches_afterYearTail hay]
        | none =>
          rw [if_neg (by simp [hay]), hihc, if_pos (by simp [hb]),
              expMatches_cons_digit_none hd hay]

/-! ### Claim theorems. -/

/-- The Scenario A input text. -/
def scenarioAText : String :=
  "Jane Doe\njane.doe@example.com\n555-123-4567\nSkills: Python, SQL, AWS\n5 years experience"

/-- The Scenario A requirement profile. -/
def scenarioAMatcher : JobMatcher :=
  JobMatcher.init ["python", "sql", "aws", "docker"] 3

/-- Claim C1: on Scenario A's text and profile, parse-then-score yields
skills `{python, sql, aws}`, 5 years of experience, skill score 75.0,
experience score 100, final score 82.5, recommendation Interview, and
missing skills exactly `{docker}`. -/
theorem C1_scenarioA :
    (parse scenarioAText).skills = {"python", "sql", "aws"} ∧
    (parse scenarioAText).years_experience = 5 ∧
    (calculate_score scenarioAMatcher (parse scenarioAText)).skill_percent = 75 ∧
    exp_score scenarioAMatcher (parse scenarioAText) = 100 ∧
    (calculate_score scenarioAMatcher (parse scenarioAText)).score = 165 / 2 ∧
    recommendation (calculate_score scenarioAMatcher (parse scenarioAText)).score
      = "Interview" ∧
    (calculate_score scenarioAMatcher (parse scenarioAText)).missing = {"docker"} := by
  have hne : scenarioAMatcher.req_skills ≠ ∅ := by decide
  have hcard1 : ((parse scenarioAText).skills ∩ scenarioAMatcher.req_skills).card = 3 := by
    decide
  have hcard2 : scenarioAMatcher.req_skills.card = 4 := by decide
  have hss : skill_score scenarioAMatcher (parse scenarioAText) = 75 := by
    unfold skill_score
    rw [if_neg hne, hcard1, hcard2]
    norm_num
  have hes : exp_score scenarioAMatcher (parse scenarioAText) = 100 := by decide
  have hfs : (calculate_score scenarioAMatcher (parse scenarioAText)).score = 165 / 2 := by
    show pyRound1 (final_score scenarioAMatcher (parse scenarioAText)) = 165 / 2
    unfold final_score
    rw [hss, hes]
    norm_num [pyRound1, rhe]
  refine ⟨by decide, by decide, ?_, hes, hfs, ?_, by decide⟩
  · show pyRound1 (skill_score scenarioAMatcher (parse scenarioAText)) = 75
    rw [hss]
    norm_num [pyRound1, rhe]
  · rw [hfs]
    unfold recommendation
    rw [if_neg (by norm_num), if_pos (by norm_num)]

/-- Claim C2: `extract_experience` first collects every occurrence of a
digit run optionally followed by `+` then (optional whitespace and) the
letters `year` with an optional `s`, returning the maximum value if any
exist; otherwise, with at least two `20xx` four-digit-year matches (as
found by the source's non-overlapping scan), it returns their span
`max - min`; otherwise 0.  In particular `"2018 - 2023"` yields 5. -/
theorem C2_experience_rule :
    (∀ text : String, extract_experience text = claimedExperience text) ∧
    extract_experience "2018 - 2023" = 5 := by
  constructor
  · intro text
    simp only [extract_experience, claimedExperience, occScan_eq_expMatches, prevNonDigit,
      if_true]
  · decide

/-! ### Lemmas for claim C3 (word-boundary matching). -/

theorem getElem?_of_isPrefixOf {p l : List Char} {i j : ℕ}
    (h : p.isPrefixOf (l.drop i) = true) (hj : j < p.length) :
    l[i + j]? = p[j]? := by
  obtain ⟨t, ht⟩ := List.isPrefixOf_iff_prefix.mp h
  have h1 : l[i + j]? = (l.drop i)[j]? := (List.getElem?_drop l i j).symm
  rw [h1, ← ht, List.getElem?_append, if_pos hj]

theorem wcAt_pos_length {p : List Char} (hp : wcAt p 0 = true) : 0 < p.length := by
  unfold wcAt at hp
  cases hq : p[0]? with
  | none => rw [hq] at hp; simp at hp
  | some c0 =>
    cases p with
    | nil => simp at hq
    | cons a as => simp

theorem wcAt_start {p l : List Char} {i : ℕ} (hpre : p.isPrefixOf (l.drop i) = true)
    (hp : wcAt p 0 = true) : wcAt l i = true := by
  unfold wcAt at hp ⊢
  cases hq : p[0]? with
  | none => rw [hq] at hp; simp at hp
  | some c0 =>
    rw [hq] at hp
    have hlt : 0 < p.length := by
      cases p with
      | nil => simp at hq
      | cons a as => simp
    have hl : l[i]? = some c0 := by
      have h2 := getElem?_of_isPrefixOf hpre hlt
      rw [Nat.add_zero] at h2
      rw [h2, hq]
    rw [hl]
    exact hp

theorem wcAt_last {p l : List Char} {i : ℕ} (hpre : p.isPrefixOf (l.drop i) = true)
    (hp : wcAt p (p.length - 1) = true) : wcAt l (i + (p.length - 1)) = true := by
  unfold wcAt at hp ⊢
  cases hq : p[p.length - 1]? with
  | none => rw [hq] at hp; simp at hp
  | some cl =>
    rw [hq] at hp
    have hlt : p.length - 1 < p.length := by
      cases p with
      | nil => simp at hq
      | cons a as => simp
    have hl : l[i + (p.length - 1)]? = some cl := by
      rw [getElem?_of_isPrefixOf hpre hlt, hq]
    rw [hl]
    exact hp

theorem boundaryAt_start {l : List Char} {i : ℕ} (hw : wcAt l i = true) :
    boundaryAt l i = !prevWC l i := by
  unfold boundaryAt
  rw [hw]
  cases prevWC l i <;> rfl

theorem boundaryAt_end {l : List Char} {k : ℕ} (hw : wcAt l k = true) :
    boundaryAt l (k + 1) = !wcAt l (k + 1) := by
  show (prevWC l (k + 1) != wcAt l (k + 1)) = !wcAt l (k + 1)
  have hp : prevWC l (k + 1) = wcAt l k := rfl
  rw [hp, hw]
  cases wcAt l (k + 1) <;> rfl

/-- For a pattern whose first and last characters are word characters, the
regex `\b...\b` hit at `i` coincides with the spec's token-separated
occurrence at `i`. -/
theorem hitAt_eq_specHit {p : List Char} (hp : wordEdged p = true) (l : List Char) (i : ℕ) :
    hitAt p l i = specHit p l i := by
  simp only [wordEdged, Bool.and_eq_true] at hp
  obtain ⟨hp0, hpl⟩ := hp
  unfold hitAt specHit
  cases hpre : p.isPrefixOf (l.drop i) with
  | false => simp
  | true =>
    have hlen : 0 < p.length := wcAt_pos_length hp0
    have hw1 : wcAt l i = true := wcAt_start hpre hp0
    have hw2 : wcAt l (i + (p.length - 1)) = true := wcAt_last hpre hpl
    have hkey : i + p.length = (i + (p.length - 1)) + 1 := by omega
    rw [boundaryAt_start hw1, hkey, boundaryAt_end hw2]

theorem skillFound_eq_specSeparated {p : List Char} (hp : wordEdged p = true)
    (l : List Char) : skillFound p l = specSeparated p l := by
  unfold skillFound specSeparated
  congr 1
  funext i
  exact hitAt_eq_specHit hp l i

/-- Claim C3 (amended part): for every vocabulary entry whose first and
last characters are word characters, the entry is reported iff it occurs
in the normalized text as a standalone token (edge or non-word character
on both sides); `java`/`javascript` never cross-match.  Entries with a
non-word edge character, such as `c++`, are excluded: their `\b` requires
an adjacent word character (see the counterexample). -/
theorem C3_whole_word (text s : String) (hs : s ∈ SKILL_DB)
    (he : wordEdged s.toList = true) :
    s ∈ extract_skills text ↔
      specSeparated s.toList (normalize_text text).toList = true := by
  unfold extract_skills found_skills
  rw [List.mem_toFinset, List.mem_filter]
  rw [skillFound_eq_specSeparated he]
  exact ⟨fun h => h.2, fun h => ⟨hs, h⟩⟩

/-- Claim C3 (counterexample): `c++` occurs standalone in
`"use c++ daily"` yet is not reported, because the trailing `\b` after a
non-word character demands a word character immediately after. -/
theorem C3_cpp_counterexample :
    "c++" ∈ SKILL_DB ∧
    specSeparated "c++".toList (normalize_text "use c++ daily").toList = true ∧
    "c++" ∉ extract_skills "use c++ daily" := by
  exact ⟨by decide, by decide, by decide⟩

/-- Witness for `C3_whole_word` at a concrete entry and text. -/
theorem C3_whole_word_witness : "python" ∈ extract_skills "i code python daily" :=
  (C3_whole_word "i code python daily" "python" (by decide) (by decide)).mpr (by decide)

/-- Candidate used for the C4 evidence: parsed from the text `"python"`. -/
def c4Candidate : Candidate := parse "python"

/-- Matcher used for the C4 evidence. -/
def c4Matcher : JobMatcher := JobMatcher.init ["docker", "kubernetes"] 0

/-- Claim C4 (evidence): the missing-skills set computed by the code for a
concrete input has two elements, so Python's `list(req_skills - skills)`
admits two distinct element orders; nothing in the computed set fixes the
order, which in CPython depends on the per-process hash seed.  The spec's
required cross-run byte-determinism is therefore not provided by the code. -/
theorem C4_missing_order_not_determined :
    pySetList (calculate_score c4Matcher c4Candidate).missing ["docker", "kubernetes"] ∧
    pySetList (calculate_score c4Matcher c4Candidate).missing ["kubernetes", "docker"] ∧
    (["docker", "kubernetes"] : List String) ≠ ["kubernetes", "docker"] :=
  ⟨⟨by decide, by decide⟩, ⟨by decide, by decide⟩, by decide⟩

/-- A PDF document whose first page extracts text and whose second page
raises inside `page.extract_text()`. -/
def c5FailingPdf : UploadedFile :=
  { name := "resume.pdf"
    pdfPages := [Except.ok (some "intro"), Except.error ()]
    docxParas := []
    txtData := Except.ok "" }

/-- Claim C5 (counterexample): a document that triggers a parsing failure
is reported (flag set), but the returned text is the page text accumulated
before the failure, not the empty string. -/
theorem C5_partial_text_counterexample :
    (extract_text c5FailingPdf).2 = true ∧ (extract_text c5FailingPdf).1 ≠ "" :=
  ⟨rfl, by decide⟩

/-- Claim C5 (amended): when a document triggers a decoding/parsing
failure, the failure is caught and reported (the flag in the result), and
the returned text is the newline-joined content successfully extracted
before the failure — always the empty string for `.txt` documents, the
prior pages/paragraphs for `.pdf`/`.docx`. -/
theorem C5_failure_keeps_prior_text (f : UploadedFile)
    (h : (extract_text f).2 = true) :
    (extract_text f).1 = failTextOf f := by
  unfold extract_text at h
  unfold extract_text failTextOf
  by_cases h1 : pyEndsWith f.name ".pdf" = true
  · rw [if_pos h1, if_pos h1, pdfLoop_spec]
    simp
  · rw [if_neg h1] at h
    rw [if_neg h1, if_neg h1]
    by_cases h2 : pyEndsWith f.name ".docx" = true
    · rw [if_pos h2, if_pos h2, docxLoop_spec]
      simp
    · rw [if_neg h2] at h
      rw [if_neg h2, if_neg h2]
      by_cases h3 : pyEndsWith f.name ".txt" = true
      · rw [if_pos h3] at h
        rw [if_pos h3]
        cases ht : f.txtData with
        | ok s => rw [ht] at h; simp at h
        | error u => rfl
      · rw [if_neg h3]

/-- A PDF document that fails on its first page. -/
def c5ErrorOnlyPdf : UploadedFile :=
  { name := "bad.pdf"
    pdfPages := [Except.error ()]
    docxParas := []
    txtData := Except.ok "" }

/-- Witness for `C5_failure_keeps_prior_text` at a concrete document. -/
theorem C5_failure_keeps_prior_text_witness :
    (extract_text c5ErrorOnlyPdf).1 = failTextOf c5ErrorOnlyPdf :=
  C5_failure_keeps_prior_text c5ErrorOnlyPdf rfl

/-- Claim C9: for a document with an unrecognized extension,
`extract_text` returns the empty string with no error report; the parsed
record of the empty text is all defaults, and scoring such a record gives
zero skill match (with all required skills missing) and, for a positive
minimum, zero experience score. -/
theorem C9_unrecognized_extension (f : UploadedFile) (m : JobMatcher)
    (h1 : pyEndsWith f.name ".pdf" = false)
    (h2 : pyEndsWith f.name ".docx" = false)
    (h3 : pyEndsWith f.name ".txt" = false) :
    extract_text f = ("", false) ∧
    parse "" = { name := "Unknown", email := "Not Found", phone := "Not Found",
                 skills := ∅, years_experience := 0, raw_text := "" } ∧
    (m.req_skills ≠ ∅ →
      skill_score m (parse "") = 0 ∧ missing_skills m (parse "") = m.req_skills) ∧
    (0 < m.min_exp → exp_score m (parse "") = 0) := by
  have hsk : (parse "").skills = ∅ := by decide
  have hyr : (parse "").years_experience = 0 := by decide
  refine ⟨?_, by decide, fun hne => ⟨?_, ?_⟩, fun hpos => ?_⟩
  · unfold extract_text
    rw [if_neg (by simp [h1]), if_neg (by simp [h2]), if_neg (by simp [h3])]
  · unfold skill_score
    rw [if_neg hne, hsk]
    simp
  · unfold missing_skills
    rw [if_neg hne, hsk]
    simp
  · unfold exp_score
    rw [hyr]
    rw [if_neg (by simp; omega), if_pos hpos]
    simp

/-- Document and matcher for the C9 witness. -/
def c9RtfFile : UploadedFile :=
  { name := "resume.rtf"
    pdfPages := []
    docxParas := []
    txtData := Except.ok "hello" }

def c9Matcher : JobMatcher := JobMatcher.init ["python"] 2

/-- Witness for `C9_unrecognized_extension` at a concrete document. -/
theorem C9_unrecognized_extension_witness :
    extract_text c9RtfFile = ("", false) ∧
    skill_score c9Matcher (parse "") = 0 ∧
    missing_skills c9Matcher (parse "") = c9Matcher.req_skills ∧
    exp_score c9Matcher (parse "") = 0 := by
  have h := C9_unrecognized_extension c9RtfFile c9Matcher
    (by decide) (by decide) (by decide)
  exact ⟨h.1, (h.2.2.1 (by decide)).1, (h.2.2.1 (by decide)).2, h.2.2.2 (by decide)⟩

/-! ### Rounding and score bounds (claims C6 and C7). -/

theorem floor_le_rhe (q : ℚ) : ⌊q⌋ ≤ rhe q := by
  unfold rhe
  split_ifs <;> omega

theorem rhe_le_floor_add_one (q : ℚ) : rhe q ≤ ⌊q⌋ + 1 := by
  unfold rhe
  split_ifs <;> omega

theorem rhe_le_ceil (q : ℚ) : rhe q ≤ ⌈q⌉ := by
  have hfc := Int.floor_le_ceil q
  have hfl := Int.floor_le q
  unfold rhe
  split_ifs with hc1 hc2 hc3
  · exact hfc
  · have hlt : (⌊q⌋ : ℚ) < q := by linarith
    have h4 : ⌊q⌋ < ⌈q⌉ := Int.lt_ceil.mpr hlt
    omega
  · exact hfc
  · have hlt : (⌊q⌋ : ℚ) < q := by linarith
    have h4 : ⌊q⌋ < ⌈q⌉ := Int.lt_ceil.mpr hlt
    omega

theorem rhe_mono {a b : ℚ} (hab : a ≤ b) : rhe a ≤ rhe b := by
  rcases lt_or_le ⌊a⌋ ⌊b⌋ with hf | hf
  · have ha1 := rhe_le_floor_add_one a
    have hb1 := floor_le_rhe b
    omega
  · have hfe : ⌊a⌋ = ⌊b⌋ := le_antisymm (Int.floor_le_floor hab) hf
    unfold rhe
    rw [← hfe]
    split_ifs <;> first | omega | linarith

theorem pyRound1_mono {a b : ℚ} (hab : a ≤ b) : pyRound1 a ≤ pyRound1 b := by
  unfold pyRound1
  have h1 : rhe (10 * a) ≤ rhe (10 * b) := rhe_mono (by linarith)
  have h2 : ((rhe (10 * a) : ℤ) : ℚ) ≤ ((rhe (10 * b) : ℤ) : ℚ) := by exact_mod_cast h1
  linarith

theorem pyRound1_nonneg {q : ℚ} (h : 0 ≤ q) : 0 ≤ pyRound1 q := by
  unfold pyRound1
  have h1 : (0 : ℤ) ≤ ⌊10 * q⌋ := Int.floor_nonneg.mpr (by linarith)
  have h2 := floor_le_rhe (10 * q)
  have h3 : ((0 : ℤ) : ℚ) ≤ ((rhe (10 * q) : ℤ) : ℚ) := by exact_mod_cast le_trans h1 h2
  simp only [Int.cast_zero] at h3
  linarith

theorem pyRound1_le_100 {q : ℚ} (h : q ≤ 100) : pyRound1 q ≤ 100 := by
  unfold pyRound1
  have h1 : ⌈10 * q⌉ ≤ 1000 := Int.ceil_le.mpr (by push_cast; linarith)
  have h2 := rhe_le_ceil (10 * q)
  have h3 : ((rhe (10 * q) : ℤ) : ℚ) ≤ ((1000 : ℤ) : ℚ) := by
    exact_mod_cast le_trans h2 h1
  push_cast at h3
  linarith

theorem skill_score_nonneg (m : JobMatcher) (c : Candidate) : 0 ≤ skill_score m c := by
  unfold skill_score
  split_ifs
  · norm_num
  · positivity

theorem skill_score_le_100 (m : JobMatcher) (c : Candidate) : skill_score m c ≤ 100 := by
  unfold skill_score
  split_ifs with hreq
  · norm_num
  · have hpos : 0 < m.req_skills.card :=
      Finset.card_pos.mpr (Finset.nonempty_iff_ne_empty.mpr hreq)
    have hle : (c.skills ∩ m.req_skills).card ≤ m.req_skills.card :=
      Finset.card_le_card Finset.inter_subset_right
    have hratio : ((c.skills ∩ m.req_skills).card : ℚ) / (m.req_skills.card : ℚ) ≤ 1 := by
      rw [div_le_one (by exact_mod_cast hpos)]
      exact_mod_cast hle
    linarith

theorem exp_score_nonneg (m : JobMatcher) (c : Candidate) : 0 ≤ exp_score m c := by
  unfold exp_score
  split_ifs with h1 h2
  · norm_num
  · have hm : (0 : ℚ) < (m.min_exp : ℚ) := by exact_mod_cast h2
    positivity
  · norm_num

theorem exp_score_le_100 (m : JobMatcher) (c : Candidate) : exp_score m c ≤ 100 := by
  unfold exp_score
  split_ifs with h1 h2
  · norm_num
  · have hm : (0 : ℚ) < (m.min_exp : ℚ) := by exact_mod_cast h2
    have hlt : ((c.years_experience : ℕ) : ℚ) ≤ (m.min_exp : ℚ) := by
      have h3 : ((c.years_experience : ℕ) : ℤ) ≤ m.min_exp := by omega
      exact_mod_cast h3
    have hratio : ((c.years_experience : ℕ) : ℚ) / (m.min_exp : ℚ) ≤ 1 := by
      rw [div_le_one hm]
      exact hlt
    linarith
  · norm_num

/-- Claim C6: for any candidate record (whose experience is a natural
number and whose skills form a set by construction) and any profile with
non-negative minimum experience, the final score lies in [0, 100] and is an
integer multiple of 1/10 (one decimal place). -/
theorem C6_final_score_bounds (m : JobMatcher) (c : Candidate)
    (hm : 0 ≤ m.min_exp) :
    0 ≤ (calculate_score m c).score ∧ (calculate_score m c).score ≤ 100 ∧
    ∃ k : ℤ, (calculate_score m c).score = (k : ℚ) / 10 := by
  have hs0 := skill_score_nonneg m c
  have hs1 := skill_score_le_100 m c
  have he0 := exp_score_nonneg m c
  have he1 := exp_score_le_100 m c
  refine ⟨?_, ?_, ⟨rhe (10 * final_score m c), rfl⟩⟩
  · apply pyRound1_nonneg
    unfold final_score
    linarith
  · apply pyRound1_le_100
    unfold final_score
    linarith

/-- Witness for `C6_final_score_bounds` at a concrete matcher/candidate. -/
theorem C6_final_score_bounds_witness :
    0 ≤ (calculate_score c9Matcher c4Candidate).score ∧
    (calculate_score c9Matcher c4Candidate).score ≤ 100 ∧
    ∃ k : ℤ, (calculate_score c9Matcher c4Candidate).score = (k : ℚ) / 10 :=
  C6_final_score_bounds c9Matcher c4Candidate (by decide)

theorem exp_score_mono_years (m : JobMatcher) (c : Candidate) {y : ℕ}
    (h : c.years_experience ≤ y) :
    exp_score m c ≤ exp_score m { c with years_experience := y } := by
  by_cases hy : ((y : ℤ) ≥ m.min_exp)
  · have hr : exp_score m { c with years_experience := y } = 100 := by
      unfold exp_score
      dsimp only
      rw [if_pos hy]
    rw [hr]
    exact exp_score_le_100 m c
  · have hc : ¬ ((c.years_experience : ℤ) ≥ m.min_exp) := by omega
    have hp : 0 < m.min_exp := by omega
    have hL : exp_score m c = ((c.years_experience : ℚ) / (m.min_exp : ℚ)) * 100 := by
      unfold exp_score
      rw [if_neg hc, if_pos hp]
    have hR : exp_score m { c with years_experience := y }
        = ((y : ℚ) / (m.min_exp : ℚ)) * 100 := by
      unfold exp_score
      dsimp only
      rw [if_neg hy, if_pos hp]
    rw [hL, hR]
    have hm : (0 : ℚ) < (m.min_exp : ℚ) := by exact_mod_cast hp
    have hyy : ((c.years_experience : ℕ) : ℚ) ≤ ((y : ℕ) : ℚ) := by exact_mod_cast h
    have hdiv := (div_le_div_iff_of_pos_right hm).mpr hyy
    linarith

theorem skill_score_mono_overlap (m : JobMatcher) (c : Candidate) {s : Finset String}
    (h : c.skills ∩ m.req_skills ⊆ s ∩ m.req_skills) :
    skill_score m c ≤ skill_score m { c with skills := s } := by
  unfold skill_score
  dsimp only
  split_ifs with hreq
  · norm_num
  · have hpos : 0 < m.req_skills.card :=
      Finset.card_pos.mpr (Finset.nonempty_iff_ne_empty.mpr hreq)
    have hposq : (0 : ℚ) < (m.req_skills.card : ℚ) := by exact_mod_cast hpos
    have hcard : (c.skills ∩ m.req_skills).card ≤ (s ∩ m.req_skills).card :=
      Finset.card_le_card h
    have hcq : ((c.skills ∩ m.req_skills).card : ℚ) ≤ ((s ∩ m.req_skills).card : ℚ) := by
      exact_mod_cast hcard
    have hdiv := (div_le_div_iff_of_pos_right hposq).mpr hcq
    linarith

/-- Claim C7: holding the profile fixed, increasing the candidate's years
of experience never decreases the final score, and enlarging the overlap
between the candidate's skills and the required skills never decreases the
final score. -/
theorem C7_monotonicity (m : JobMatcher) (c : Candidate) (y : ℕ) (s : Finset String) :
    (c.years_experience ≤ y →
      (calculate_score m c).score
        ≤ (calculate_score m { c with years_experience := y }).score) ∧
    (c.skills ∩ m.req_skills ⊆ s ∩ m.req_skills →
      (calculate_score m c).score
        ≤ (calculate_score m { c with skills := s }).score) := by
  constructor
  · intro h
    apply pyRound1_mono
    unfold final_score
    have hs : skill_score m { c with years_experience := y } = skill_score m c := rfl
    have he := exp_score_mono_years m c h
    rw [hs]
    linarith
  · intro h
    apply pyRound1_mono
    unfold final_score
    have he : exp_score m { c with skills := s } = exp_score m c := rfl
    have hs := skill_score_mono_overlap m c h
    rw [he]
    linarith

/-- Witness for `C7_monotonicity` at concrete values. -/
theorem C7_monotonicity_witness :
    (calculate_score c9Matcher c4Candidate).score
      ≤ (calculate_score c9Matcher { c4Candidate with years_experience := 7 }).score ∧
    (calculate_score c9Matcher c4Candidate).score
      ≤ (calculate_score c9Matcher { c4Candidate with skills := {"python", "sql"} }).score :=
  ⟨(C7_monotonicity c9Matcher c4Candidate 7 {"python", "sql"}).1 (by decide),
   (C7_monotonicity c9Matcher c4Candidate 7 {"python", "sql"}).2 (by decide)⟩

/-- Claim C8: any list enumeration of the skills returned by
`extract_skills` has no duplicates, and every entry belongs to the fixed
vocabulary and is already lower-case. -/
theorem C8_skills_subset_vocabulary (text : String) (l : List String)
    (h : pySetList (extract_skills text) l) :
    l.Nodup ∧ ∀ s ∈ l, s ∈ SKILL_DB ∧ s.toList.map pyLower = s.toList := by
  obtain ⟨hnd, hts⟩ := h
  refine ⟨hnd, fun s hs => ?_⟩
  have h1 : s ∈ extract_skills text := by
    rw [← hts]
    exact List.mem_toFinset.mpr hs
  have h2 : s ∈ found_skills text := List.mem_toFinset.mp h1
  have h3 : s ∈ SKILL_DB := List.mem_of_mem_filter h2
  refine ⟨h3, ?_⟩
  have hall : SKILL_DB.all (fun t => t.toList.map pyLower == t.toList) = true := by decide
  have h4 := List.all_eq_true.mp hall s h3
  exact eq_of_beq h4

/-- Witness for `C8_skills_subset_vocabulary` at a concrete text. -/
theorem C8_skills_subset_vocabulary_witness :
    (["python", "sql"] : List String).Nodup ∧
    ∀ s ∈ (["python", "sql"] : List String),
      s ∈ SKILL_DB ∧ s.toList.map pyLower = s.toList :=
  C8_skills_subset_vocabulary "python and sql skills" ["python", "sql"]
    ⟨by decide, by decide⟩

/-! ### Normalization equals the spec's words-join description (claim C10). -/

theorem collapseF_irrel : ∀ (f1 f2 : ℕ) (l : List Char),
    l.length ≤ f1 → l.length ≤ f2 → collapseF f1 l = collapseF f2 l := by
  intro f1
  induction f1 with
  | zero =>
    intro f2 l h1 _
    have hl : l = [] := List.length_eq_zero.mp (Nat.le_zero.mp h1)
    subst hl
    cases f2 <;> rfl
  | succ f ih =>
    intro f2 l h1 h2
    cases l with
    | nil => cases f2 <;> rfl
    | cons c cs =>
      cases f2 with
      | zero => simp at h2
      | succ g =>
        simp only [List.length_cons] at h1 h2
        simp only [collapseF]
        split
        · have hle := dropWhileLenLe isSpaceC cs
          rw [ih g _ (by omega) (by omega)]
        · rw [ih g cs (by omega) (by omega)]

theorem collapseWS_nil : collapseWS [] = [] := rfl

theorem collapseWS_cons_space {c : Char} {cs : List Char} (h : isSpaceC c = true) :
    collapseWS (c :: cs) = ' ' :: collapseWS (cs.dropWhile isSpaceC) := by
  unfold collapseWS
  simp only [List.length_cons, collapseF]
  rw [if_pos h]
  congr 1
  exact collapseF_irrel cs.length _ _ (dropWhileLenLe _ _) (le_refl _)

theorem collapseWS_cons_nonspace {c : Char} {cs : List Char} (h : isSpaceC c = false) :
    collapseWS (c :: cs) = c :: collapseWS cs := by
  unfold collapseWS
  simp only [List.length_cons, collapseF]
  rw [if_neg (by simp [h])]

theorem wordsOfF_irrel : ∀ (f1 f2 : ℕ) (l : List Char),
    l.length ≤ f1 → l.length ≤ f2 → wordsOfF f1 l = wordsOfF f2 l := by
  intro f1
  induction f1 with
  | zero =>
    intro f2 l h1 _
    have hl : l = [] := List.length_eq_zero.mp (Nat.le_zero.mp h1)
    subst hl
    cases f2 <;> rfl
  | succ f ih =>
    intro f2 l h1 h2
    cases l with
    | nil => cases f2 <;> rfl
    | cons c cs =>
      cases f2 with
      | zero => simp at h2
      | succ g =>
        simp only [List.length_cons] at h1 h2
        simp only [wordsOfF]
        split
        · exact ih g cs (by omega) (by omega)
        · have hle := dropWhileLenLe (fun x => !isSpaceC x) cs
          rw [ih g _ (by omega) (by omega)]

theorem wordsOf_nil : wordsOf [] = [] := rfl

theorem wordsOf_cons_space {c : Char} {cs : List Char} (h : isSpaceC c = true) :
    wordsOf (c :: cs) = wordsOf cs := by
  unfold wordsOf
  simp only [List.length_cons, wordsOfF]
  rw [if_pos h]

theorem wordsOf_cons_nonspace {c : Char} {cs : List Char} (h : isSpaceC c = false) :
    wordsOf (c :: cs)
      = (c :: cs.takeWhile (fun x => !isSpaceC x))
        :: wordsOf (cs.dropWhile (fun x => !isSpaceC x)) := by
  unfold wordsOf
  simp only [List.length_cons, wordsOfF]
  rw [if_neg (by simp [h])]
  congr 1
  exact wordsOfF_irrel cs.length _ _ (dropWhileLenLe _ _) (le_refl _)

theorem wordsOf_dropWhile_space (l : List Char) :
    wordsOf (l.dropWhile isSpaceC) = wordsOf l := by
  induction l with
  | nil => rfl
  | cons c cs ih =>
    cases h : isSpaceC c with
    | true => rw [List.dropWhile_cons_of_pos h, ih, wordsOf_cons_space h]
    | false => rw [List.dropWhile_cons_of_neg (by simp [h])]

theorem stripWS_cons_space {c : Char} {x : List Char} (h : isSpaceC c = true) :
    stripWS (c :: x) = stripWS x := by
  unfold stripWS ltrimWS
  rw [List.dropWhile_cons_of_pos h]

theorem ltrimWS_cons_nonspace {c : Char} {x : List Char} (h : isSpaceC c = false) :
    ltrimWS (c :: x) = c :: x :=
  List.dropWhile_cons_of_neg (by simp [h])

theorem collapseWS_append_nonspace : ∀ (a b : List Char),
    (∀ x ∈ a, isSpaceC x = false) → collapseWS (a ++ b) = a ++ collapseWS b := by
  intro a
  induction a with
  | nil => intro b _; rfl
  | cons c cs ih =>
    intro b hns
    have hc : isSpaceC c = false := hns c (by simp)
    rw [List.cons_append, collapseWS_cons_nonspace hc,
        ih b (fun x hx => hns x (by simp [hx])), List.cons_append]

theorem rtrimWS_append (a b : List Char) :
    rtrimWS (a ++ b) = if rtrimWS b = [] then rtrimWS a else a ++ rtrimWS b := by
  unfold rtrimWS
  rw [List.reverse_append, List.dropWhile_append]
  by_cases hb : (b.reverse.dropWhile isSpaceC).isEmpty = true
  · rw [if_pos hb]
    have hb1 : b.reverse.dropWhile isSpaceC = [] := List.isEmpty_iff.mp hb
    rw [if_pos (by rw [hb1]; rfl)]
  · rw [if_neg hb]
    have hb1 : b.reverse.dropWhile isSpaceC ≠ [] := by
      intro hcon
      exact hb (by rw [hcon]; rfl)
    rw [if_neg (by simp [hb1]), List.reverse_append, List.reverse_reverse]

theorem rtrimWS_all_nonspace (a : List Char) (hns : ∀ x ∈ a, isSpaceC x = false) :
    rtrimWS a = a := by
  unfold rtrimWS
  cases hr : a.reverse with
  | nil =>
    have ha : a = [] := by simpa using congrArg List.reverse hr
    subst ha
    rfl
  | cons c cs =>
    have hc : isSpaceC c = false := by
      apply hns
      have : c ∈ a.reverse := by rw [hr]; exact List.mem_cons_self c cs
      exact List.mem_reverse.mp this
    rw [List.dropWhile_cons_of_neg (by simp [hc]), ← hr, List.reverse_reverse]

theorem rtrimWS_cons_of_ne {y : Char} {x : List Char} (h : rtrimWS x ≠ []) :
    rtrimWS (y :: x) = y :: rtrimWS x := by
  have h2 : x.reverse.dropWhile isSpaceC ≠ [] := by
    intro hcon
    apply h
    unfold rtrimWS
    rw [hcon]
    rfl
  unfold rtrimWS
  rw [List.reverse_cons, List.dropWhile_append, if_neg (by simp [h2]),
      List.reverse_append]
  rfl

theorem joinWords_cons_ne {w : List Char} {ws : List (List Char)} (h : ws ≠ []) :
    joinWords (w :: ws) = w ++ ' ' :: joinWords ws := by
  cases ws with
  | nil => exact absurd rfl h
  | cons w2 ws2 => rfl

theorem dropWhile_head_not {p : Char → Bool} {x : Char} {xs : List Char} :
    ∀ l : List Char, l.dropWhile p = x :: xs → p x = false := by
  intro l
  induction l with
  | nil => intro h; cases h
  | cons c cs ih =>
    intro h
    by_cases hc : p c = true
    · rw [List.dropWhile_cons_of_pos hc] at h
      exact ih h
    · rw [List.dropWhile_cons_of_neg (by simp [hc])] at h
      cases h
      simpa using hc

theorem rtrim_collapse_word : ∀ (n : ℕ) (c : Char) (cs : List Char),
    cs.length < n → isSpaceC c = false →
    rtrimWS (collapseWS (c :: cs)) = joinWords (wordsOf (c :: cs)) := by
  intro n
  induction n with
  | zero => intro c cs h _; omega
  | succ n ih =>
    intro c cs hlen hc
    have hcs : cs.takeWhile (fun x => !isSpaceC x) ++ cs.dropWhile (fun x => !isSpaceC x)
        = cs := List.takeWhile_append_dropWhile _ _
    have hns : ∀ x ∈ c :: cs.takeWhile (fun x => !isSpaceC x), isSpaceC x = false := by
      intro x hx
      rcases List.mem_cons.mp hx with h1 | h1
      · subst h1; exact hc
      · have h2 := List.mem_takeWhile_imp h1
        simpa using h2
    have hL : collapseWS (c :: cs)
        = (c :: cs.takeWhile (fun x => !isSpaceC x))
          ++ collapseWS (cs.dropWhile (fun x => !isSpaceC x)) := by
      conv_lhs => rw [show c :: cs
        = (c :: cs.takeWhile (fun x => !isSpaceC x))
          ++ cs.dropWhile (fun x => !isSpaceC x) by
          rw [List.cons_append, hcs]]
      exact collapseWS_append_nonspace _ _ hns
    rw [hL, wordsOf_cons_nonspace hc]
    cases hdd : cs.dropWhile (fun x => !isSpaceC x) with
    | nil =>
      rw [collapseWS_nil, List.append_nil, wordsOf_nil]
      exact rtrimWS_all_nonspace _ hns
    | cons d0 ds =>
      have hd0 : isSpaceC d0 = true := by
        have h3 := dropWhile_head_not _ hdd
        simpa using h3
      rw [collapseWS_cons_space hd0, wordsOf_cons_space hd0,
          ← wordsOf_dropWhile_space ds]
      cases hds : ds.dropWhile isSpaceC with
      | nil =>
        rw [collapseWS_nil, wordsOf_nil, rtrimWS_append, if_pos (by rfl)]
        exact rtrimWS_all_nonspace _ hns
      | cons x0 xs =>
        have hx0 : isSpaceC x0 = false := dropWhile_head_not _ hds
        have hlen2 : xs.length < n := by
          have h4 : (x0 :: xs).length ≤ ds.length := by
            rw [← hds]
            exact dropWhileLenLe _ _
          have h5 : (d0 :: ds).length ≤ cs.length := by
            rw [← hdd]
            exact dropWhileLenLe _ _
          simp only [List.length_cons] at h4 h5
          omega
        have hIH := ih x0 xs hlen2 hx0
        have hJne : joinWords (wordsOf (x0 :: xs)) ≠ [] := by
          rw [wordsOf_cons_nonspace hx0]
          cases hwords2 : wordsOf (xs.dropWhile (fun x => !isSpaceC x)) with
          | nil => simp [joinWords]
          | cons ww wws => rw [joinWords_cons_ne (by simp)]; simp
        have hrne : rtrimWS (collapseWS (x0 :: xs)) ≠ [] := by
          rw [hIH]
          exact hJne
        have hWne : wordsOf (x0 :: xs) ≠ [] := by
          rw [wordsOf_cons_nonspace hx0]
          simp
        have hrb : rtrimWS (' ' :: collapseWS (x0 :: xs))
            = ' ' :: rtrimWS (collapseWS (x0 :: xs)) := rtrimWS_cons_of_ne hrne
        rw [rtrimWS_append, hrb, if_neg (by simp), hIH, joinWords_cons_ne hWne]

/-- The source's `re.sub`-plus-`strip` normalization equals the spec's
"whitespace-separated words joined by single spaces" description. -/
theorem stripWS_collapseWS (l : List Char) :
    stripWS (collapseWS l) = joinWords (wordsOf l) := by
  rw [← wordsOf_dropWhile_space l]
  have hstrip : stripWS (collapseWS l) = stripWS (collapseWS (l.dropWhile isSpaceC)) := by
    cases l with
    | nil => rfl
    | cons c cs =>
      cases hc : isSpaceC c with
      | true =>
        rw [collapseWS_cons_space hc, stripWS_cons_space (by decide),
            List.dropWhile_cons_of_pos hc]
      | false =>
        rw [List.dropWhile_cons_of_neg (by simp [hc])]
  rw [hstrip]
  cases hz : l.dropWhile isSpaceC with
  | nil => rfl
  | cons x0 xs =>
    have hx0 : isSpaceC x0 = false := dropWhile_head_not _ hz
    have h1 : stripWS (collapseWS (x0 :: xs)) = rtrimWS (collapseWS (x0 :: xs)) := by
      unfold stripWS
      rw [collapseWS_cons_nonspace hx0, ltrimWS_cons_nonspace hx0]
    rw [h1]
    exact rtrim_collapse_word (xs.length + 1) x0 xs (by omega) hx0

theorem normalize_eq_specNormalize (s : String) : normalize_text s = specNormalize s :=
  congrArg String.mk (stripWS_collapseWS (s.toList.map pyLower))

/-- Claim C10: the constructor stores exactly the input skills normalized
(lower-cased, whitespace runs collapsed to one space, ends stripped — here
phrased as the spec's words-join description) with duplicates removed by
the set, and `calculate_score`'s missing-skill computation compares the
candidate's skills against exactly this normalized set. -/
theorem C10_req_skills_normalized (skills : List String) (e : ℤ) :
    (JobMatcher.init skills e).req_skills = (skills.map specNormalize).toFinset ∧
    ∀ c : Candidate,
      missing_skills (JobMatcher.init skills e) c =
        if (skills.map specNormalize).toFinset = ∅ then ∅
        else (skills.map specNormalize).toFinset \ c.skills := by
  have hfun : normalize_text = specNormalize := funext normalize_eq_specNormalize
  have h1 : (JobMatcher.init skills e).req_skills = (skills.map specNormalize).toFinset := by
    unfold JobMatcher.init
    rw [hfun]
  refine ⟨h1, fun c => ?_⟩
  unfold missing_skills
  rw [h1]
